import Mathlib

/-!
Shallow embedding of the core of the `converter_x_python_gui` backend
(Excel-to-XML conversion pipeline with at-rest encryption), together with
proofs and refutations of the specification claims.

Bytes are modelled as natural numbers below 256, byte strings as `List Nat`,
and Python text as `List Char`.  Fallible Python code (functions that raise)
is modelled with `Option`/`Except`.
-/

/- ======================================================================
   Section 1: AESEncryption (src/backend/utils/encryption.py)
   ====================================================================== -/

/-- Byte-wise XOR of two byte strings (the CBC chaining operation applied by
`cryptography`'s CBC mode between a plaintext block and the previous
ciphertext block). -/
def xorBytes (a b : List Nat) : List Nat :=
  List.zipWith Nat.xor a b

/-- `AESEncryption._pad` (encryption.py lines 33-37): PKCS7 padding.
`pad_length = 16 - (len(data) % 16)` bytes, each of value `pad_length`,
are appended. -/
def pad (data : List Nat) : List Nat :=
  data ++ List.replicate (16 - data.length % 16) (16 - data.length % 16)

/-- `AESEncryption._unpad` (encryption.py lines 39-42): reads the last byte
as the pad length and slices it off (`data[:-pad_length]`) WITHOUT validating
the padding bytes.  On empty input Python raises `IndexError` (`data[-1]`),
modelled as `none`.  Python's `data[:-0]` is the empty string, hence the
explicit zero case. -/
def unpad (data : List Nat) : Option (List Nat) :=
  match data.getLast? with
  | none => none
  | some padLength =>
      if padLength = 0 then some []
      else some (data.take (data.length - padLength))

/-- One fuel-indexed pass of CBC encryption: `C_i = E (P_i ^^^ C_(i-1))`,
processing the byte stream 16 bytes at a time, as `cryptography`'s CBC mode
does with the AES block permutation `E`.  The fuel argument only forces
structural termination; it is set to the length of the data. -/
def cbcEncryptAux (E : List Nat → List Nat) : Nat → List Nat → List Nat → List Nat
  | 0, _, _ => []
  | _ + 1, _, [] => []
  | fuel + 1, prev, d :: ds =>
      let c := E (xorBytes ((d :: ds).take 16) prev)
      c ++ cbcEncryptAux E fuel c ((d :: ds).drop 16)

/-- CBC encryption of a (block-aligned) byte string with initial chaining
value `prev` (the IV). -/
def cbcEncrypt (E : List Nat → List Nat) (prev data : List Nat) : List Nat :=
  cbcEncryptAux E data.length prev data

/-- Fuel-indexed CBC decryption: `P_i = D (C_i) ^^^ C_(i-1)`. -/
def cbcDecryptAux (D : List Nat → List Nat) : Nat → List Nat → List Nat → List Nat
  | 0, _, _ => []
  | _ + 1, _, [] => []
  | fuel + 1, prev, d :: ds =>
      xorBytes (D ((d :: ds).take 16)) prev
        ++ cbcDecryptAux D fuel ((d :: ds).take 16) ((d :: ds).drop 16)

/-- CBC decryption of a byte string with initial chaining value `prev`. -/
def cbcDecrypt (D : List Nat → List Nat) (prev data : List Nat) : List Nat :=
  cbcDecryptAux D data.length prev data

/-- The base64 alphabet used by `base64.b64encode`. -/
def b64Alphabet : List Char :=
  "ABCDEFGHIJKLMNOPQRSTUVWXYZabcdefghijklmnopqrstuvwxyz0123456789+/".data

/-- Character for a sextet value. -/
def sextetChar (n : Nat) : Char :=
  b64Alphabet.getD n '?'

/-- Sextet value of a base64 character, `none` for characters outside the
alphabet (in particular for `=`). -/
def sextetOfChar (c : Char) : Option Nat :=
  b64Alphabet.findIdx? (fun a => a = c)

/-- `base64.b64encode`, producing the standard padded encoding: groups of 3
bytes become 4 characters; a final group of 1 or 2 bytes is padded with
`==` or `=`. -/
def b64encode : List Nat → List Char
  | [] => []
  | [a] =>
      let n := a * 65536
      [sextetChar (n / 262144), sextetChar (n / 4096 % 64), '=', '=']
  | [a, b] =>
      let n := a * 65536 + b * 256
      [sextetChar (n / 262144), sextetChar (n / 4096 % 64),
       sextetChar (n / 64 % 64), '=']
  | a :: b :: c :: rest =>
      let n := a * 65536 + b * 256 + c
      sextetChar (n / 262144) :: sextetChar (n / 4096 % 64) ::
        sextetChar (n / 64 % 64) :: sextetChar (n % 64) :: b64encode rest

/-- `base64.b64decode` on well-formed input: groups of 4 characters decode to
3 bytes; a final `xx==` group yields 1 byte and a final `xxx=` group yields
2 bytes.  Malformed input (wrong length, `=` in a non-padding position)
yields `none`, modelling `binascii.Error`. -/
def b64decode : List Char → Option (List Nat)
  | [] => some []
  | c1 :: c2 :: c3 :: c4 :: rest =>
      if rest = [] ∧ c4 = '=' then
        match sextetOfChar c1, sextetOfChar c2 with
        | some s1, some s2 =>
            if c3 = '=' then
              some [(s1 * 262144 + s2 * 4096) / 65536]
            else
              match sextetOfChar c3 with
              | some s3 =>
                  let m := s1 * 262144 + s2 * 4096 + s3 * 64
                  some [m / 65536, m / 256 % 256]
              | none => none
        | _, _ => none
      else
        match sextetOfChar c1, sextetOfChar c2, sextetOfChar c3, sextetOfChar c4 with
        | some s1, some s2, some s3, some s4 =>
            match b64decode rest with
            | some bs =>
                let m := s1 * 262144 + s2 * 4096 + s3 * 64 + s4
                some (m / 65536 :: m / 256 % 256 :: m % 256 :: bs)
            | none => none
        | _, _, _, _ => none
  | _ => none

/-- `AESEncryption.encrypt_data` (encryption.py lines 44-85): pads the data,
CBC-encrypts it under the derived key with a random 16-byte IV, and returns
the base64 encoding of `IV || ciphertext`.  The AES block permutation and
the randomly drawn IV are parameters of the embedding. -/
def encrypt_data (E : List Nat → List Nat) (iv data : List Nat) : List Char :=
  b64encode (iv ++ cbcEncrypt E iv (pad data))

/-- `AESEncryption.decrypt_data` (encryption.py lines 87-125): base64-decodes
the blob, splits the first 16 bytes off as the IV (`modes.CBC` raises if the
IV is not exactly 16 bytes), CBC-decrypts the remainder
(`decryptor.finalize()` raises if it is not block-aligned), and strips the
padding with `_unpad`.  Any raised exception is re-raised by the function,
modelled as `none`. -/
def decrypt_data (D : List Nat → List Nat) (encryptedData : List Char) : Option (List Nat) :=
  match b64decode encryptedData with
  | none => none
  | some eb =>
      let iv := eb.take 16
      let ct := eb.drop 16
      if iv.length = 16 then
        if ct.length % 16 = 0 then
          unpad (cbcDecrypt D iv ct)
        else none
      else none

example : unpad (pad [65]) = some [65] := by decide
example : b64decode (b64encode [1, 2, 3, 4]) = some [1, 2, 3, 4] := by decide
example : decrypt_data id (encrypt_data id (List.replicate 16 0) [65]) = some [65] := by decide

/- ======================================================================
   Section 2: tag sanitizers
   (routes/converter.py `sanitize_xml_tag`, services/converter.py
   `ExcelToXMLConverter.sanitize_xml_tag`, utils/converter.py
   `ExcelToXMLConverter._sanitize_xml_tag`)
   ====================================================================== -/

/-- Python's regex class `\s` (ASCII part; the Unicode whitespace code
points also matched by Python are outside every alphabet used below and
behave identically, so they are not enumerated). -/
def pySpace (c : Char) : Bool :=
  c == ' ' || c == '\t' || c == '\n' || c == '\r' || c == '\x0b' || c == '\x0c'

/-- The character class `[a-zA-Z0-9_]` (regex `\w`, and the allowed set of
`_sanitize_xml_tag`'s special-character check). -/
def isWordChar (c : Char) : Bool :=
  c.isAlpha || c.isDigit || c == '_'

/-- The character class `[a-zA-Z0-9_.-]` of valid XML-ish tag characters. -/
def isTagChar (c : Char) : Bool :=
  isWordChar c || c == '.' || c == '-'

/-- Worker for `re.sub` with a one-character-class-plus pattern: each maximal
run of characters satisfying `p` is replaced by a single underscore.
`inRun` records whether the previous character was part of a run. -/
def collapseRunsGo (p : Char → Bool) : Bool → List Char → List Char
  | _, [] => []
  | inRun, c :: rest =>
      if p c then
        if inRun then collapseRunsGo p true rest
        else '_' :: collapseRunsGo p true rest
      else c :: collapseRunsGo p false rest

/-- Replace every maximal run of characters satisfying `p` by one `_`. -/
def collapseRuns (p : Char → Bool) (l : List Char) : List Char :=
  collapseRunsGo p false l

/-- `re.match(r'^[a-zA-Z_]', tag)` as a test on the first character. -/
def startsTagOk : List Char → Bool
  | [] => false
  | c :: _ => c.isAlpha || c == '_'

/-- The full-match test for the specification regex
`^[A-Za-z_][A-Za-z0-9_.-]*$`. -/
def matchesTagRegex : List Char → Bool
  | [] => false
  | c :: rest => (c.isAlpha || c == '_') && rest.all isTagChar

/-- `sanitize_xml_tag` from routes/converter.py (lines 320-325):
whitespace runs to `_`, strip characters outside `[a-zA-Z0-9_.-]`, prepend
`_` unless the result starts with a letter or underscore. -/
def sanitize_xml_tag_route (s : List Char) : List Char :=
  let t := (collapseRuns pySpace s).filter isTagChar
  if startsTagOk t then t else '_' :: t

/-- `ExcelToXMLConverter.sanitize_xml_tag` from services/converter.py
(lines 57-65): runs of whitespace/non-word characters to `_`, replace (not
prepend) an invalid first character by `_`, then strip characters outside
`[a-zA-Z0-9_.-]`. -/
def sanitize_xml_tag_service (s : List Char) : List Char :=
  let t1 := collapseRuns (fun c => pySpace c || !isWordChar c) s
  let t2 := match t1 with
    | [] => []
    | c :: rest => if c.isAlpha || c == '_' then c :: rest else '_' :: rest
  t2.filter isTagChar

/-- Python `str.strip` with respect to a character class: drop a maximal
prefix and suffix of characters satisfying `p`. -/
def stripChars (p : Char → Bool) (l : List Char) : List Char :=
  ((l.dropWhile p).reverse.dropWhile p).reverse

/-- The exceptions `ExcelToXMLConverter._sanitize_xml_tag` can raise. -/
inductive SanitizeErr where
  /-- ValueError: empty tag name is not allowed -/
  | emptyTag
  /-- ValueError: invalid characters in tag name -/
  | invalidChars
  /-- IndexError from `tag[0]` when the stripped tag is empty -/
  | indexError
  /-- ValueError: tag name cannot be empty after sanitization -/
  | emptyAfter
deriving DecidableEq

/-- `str.replace(' ', '_')`: replace each space by an underscore. -/
def replaceSpaces (s : List Char) : List Char :=
  s.map (fun c => if c == ' ' then '_' else c)

/-- `ExcelToXMLConverter._sanitize_xml_tag` from utils/converter.py
(lines 20-49).  Order of operations as in the source: reject empty input;
strip surrounding whitespace; reject any remaining character outside
`[a-zA-Z0-9_]` (note this rejects interior spaces, making the subsequent
space replacement unreachable); replace spaces; prepend `_` unless the
first character is a letter or underscore (`tag[0]` raises IndexError on a
whitespace-only input); collapse runs of underscores (the `while '__' in
tag` loop) and strip leading/trailing underscores; reject an empty result. -/
def sanitize_xml_tag_utils (s : List Char) : Except SanitizeErr (List Char) :=
  if s = [] then .error .emptyTag
  else
    let t := stripChars pySpace s
    if t.any (fun c => !isWordChar c) then .error .invalidChars
    else
      match replaceSpaces t with
      | [] => .error .indexError
      | c :: rest =>
          let t3 := if c.isAlpha || c == '_' then c :: rest else '_' :: c :: rest
          let t4 := stripChars (fun x => x == '_') (collapseRuns (fun x => x == '_') t3)
          if t4 = [] then .error .emptyAfter else .ok t4

example : sanitize_xml_tag_route "First Name".data = "First_Name".data := by decide
example : sanitize_xml_tag_route "".data = "_".data := by decide
example : sanitize_xml_tag_service "".data = [] := by decide
example : sanitize_xml_tag_utils "@".data = .error .invalidChars := rfl
example : sanitize_xml_tag_utils "First Name".data = .error .invalidChars := rfl
example : sanitize_xml_tag_utils "5".data = .ok "5".data := rfl
example : sanitize_xml_tag_utils "Age".data = .ok "Age".data := rfl
example : sanitize_xml_tag_utils "   ".data = .error .indexError := rfl
example : sanitize_xml_tag_utils "_".data = .error .emptyAfter := rfl

/- ======================================================================
   Section 3: XML tree building
   (utils/converter.py `_create_header`, `_process_excel_data`,
   `_create_data_section`, `convert`; routes/converter.py header parsing)
   ====================================================================== -/

/-- An ElementTree element: tag, text and list of child elements. -/
inductive XNode where
  | elem (tag : List Char) (text : List Char) (children : List XNode)

/-- Tag of an element. -/
def tagOf : XNode → List Char
  | .elem t _ _ => t

/-- Text of an element. -/
def textOf : XNode → List Char
  | .elem _ t _ => t

/-- Children of an element. -/
def childrenOf : XNode → List XNode
  | .elem _ _ c => c

/-- One spreadsheet cell as seen by `_process_excel_data`: missing (`NaN`),
numeric, or anything else (already carrying its text form).  The float and
datetime branches of the source behave like the text branch for the inputs
the claims exercise and are not distinguished here. -/
inductive Cell where
  | na
  | int (n : Int)
  | text (s : List Char)

/-- The per-cell conversion done in `_process_excel_data` (utils/converter.py
lines 77-94): missing values become the empty string, numbers and everything
else are converted with `str`. -/
def coerceCell : Cell → List Char
  | .na => []
  | .int n => (toString n).data
  | .text s => s

/-- A loaded spreadsheet (`pandas.DataFrame`): ordered column names and rows,
each row holding one cell per column.  `pandas` renames duplicate column
names on read, so distinct names need not be assumed. -/
structure Table where
  cols : List (List Char)
  rows : List (List Cell)

/-- `df.empty`: true iff there are no rows or no columns. -/
def tableEmpty (t : Table) : Bool :=
  t.rows.isEmpty || t.cols.isEmpty

/-- `_process_excel_data`: one record (association of column name to
converted cell text) per row, columns in source order. -/
def processExcelData (t : Table) : List (List (List Char × List Char)) :=
  t.rows.map (fun r => t.cols.zip (r.map coerceCell))

/-- The field elements of one `Row` element in `_create_data_section`
(utils/converter.py lines 96-107): each field name is sanitized (a raised
ValueError aborts the conversion); an empty sanitized name is skipped
(`continue`); otherwise a child element with the converted cell text is
appended. -/
def buildFields : List (List Char × List Char) → Except SanitizeErr (List XNode)
  | [] => .ok []
  | (n, v) :: rest =>
      match sanitize_xml_tag_utils n with
      | .error e => .error e
      | .ok t =>
          match buildFields rest with
          | .error e => .error e
          | .ok fs => .ok (if t = [] then fs else .elem t v [] :: fs)

/-- The `Row` elements of the `Data` section, one per record. -/
def buildRows : List (List (List Char × List Char)) → Except SanitizeErr (List XNode)
  | [] => .ok []
  | rec :: rest =>
      match buildFields rec with
      | .error e => .error e
      | .ok fields =>
          match buildRows rest with
          | .error e => .error e
          | .ok rs => .ok (.elem "Row".data [] fields :: rs)

/-- `_create_data_section`: a `Data` element holding the row elements. -/
def createDataSection (records : List (List (List Char × List Char))) :
    Except SanitizeErr XNode :=
  match buildRows records with
  | .error e => .error e
  | .ok rs => .ok (.elem "Data".data [] rs)

/-- `_create_header` (utils/converter.py lines 51-75): nothing if no header
fields; otherwise a `HEADER` element with one child per field, whose tag is
the field name with spaces replaced by underscores (no sanitization) and
whose text is the value (empty for `None`). -/
def createHeader (headerFields : List (List Char × Option (List Char))) : List XNode :=
  if headerFields = [] then []
  else
    [.elem "HEADER".data []
      (headerFields.map (fun kv => .elem (replaceSpaces kv.1) (kv.2.getD []) []))]

/-- The tree assembled by `ExcelToXMLConverter.convert` (utils/converter.py
lines 139-160): a `CALLREPORT` root with the optional `HEADER`, then an
empty `BODY` element, then the `Data` section built from the records (the
source attaches the data section to the root, leaving `BODY` empty). -/
def convertTree (headerFields : List (List Char × Option (List Char)))
    (t : Table) : Except SanitizeErr XNode :=
  match createDataSection (processExcelData t) with
  | .error e => .error e
  | .ok dataSec =>
      .ok (.elem "CALLREPORT".data []
        (createHeader headerFields ++ [.elem "BODY".data [] [], dataSec]))

/-- Python-dict insertion on an association list: an existing key keeps its
position and gets the new value, a new key is appended. -/
def dictInsert (k : List Char) (v : Option (List Char)) :
    List (List Char × Option (List Char)) → List (List Char × Option (List Char))
  | [] => [(k, v)]
  | (k', v') :: rest =>
      if k' = k then (k', v) :: rest else (k', v') :: dictInsert k v rest

/-- Header-field parsing in `convert_file` (routes/converter.py lines
128-141): each supplied `tagName` has its spaces replaced by underscores and
is inserted into a dict, so duplicates collapse with last-wins semantics. -/
def buildHeaderFields (arr : List (List Char × Option (List Char))) :
    List (List Char × Option (List Char)) :=
  arr.foldl (fun d kv => dictInsert (replaceSpaces kv.1) kv.2 d) []

/-- Python-dict lookup on the association list: the value stored at a key. -/
def dictFind (k : List Char) :
    List (List Char × Option (List Char)) → Option (Option (List Char))
  | [] => none
  | (k2, v) :: rest => if k2 = k then some v else dictFind k rest

example :
    convertTree [] ⟨["Age".data], [[Cell.int 30]]⟩ =
      .ok (.elem "CALLREPORT".data []
        [.elem "BODY".data [] [],
         .elem "Data".data [] [.elem "Row".data [] [.elem "Age".data "30".data []]]]) := rfl
example : convertTree [] ⟨["First Name".data, "Age".data],
    [[Cell.text "Jo".data, Cell.int 30]]⟩ = .error .invalidChars := rfl
example :
    buildHeaderFields [("A B".data, some "1".data), ("A_B".data, some "2".data)] =
      [("A_B".data, some "2".data)] := rfl

/- ======================================================================
   Section 4: conversion pipeline and routes
   (utils/converter.py `convert`; routes/converter.py `convert_file`,
   `download_file`)
   ====================================================================== -/

/-- The persisted-file state: the set of paths present on disk, as a list.
Writing is idempotent (`open(path, 'w')` overwrites). -/
def writeFile (p : String) (fs : List String) : List String :=
  if p ∈ fs then fs else fs ++ [p]

/-- `Path.unlink`: the path is no longer present afterwards. -/
def removeFile (p : String) (fs : List String) : List String :=
  fs.filter (fun q => q ≠ p)

/-- The failures `ExcelToXMLConverter.convert` can surface, including
injected failures of the post-serialization stages (encryption, audit
logging), which the source only logs and re-raises. -/
inductive ConvErr where
  /-- FileNotFoundError: input file not found -/
  | inputNotFound
  /-- ValueError: failed to read Excel file -/
  | invalidFormat
  /-- ValueError: Excel file is empty -/
  | emptySource
  /-- ValueError raised while sanitizing a column name -/
  | sanitizeFailed (e : SanitizeErr)
  /-- a failure raised inside `encryption.encrypt_file` -/
  | encryptFailed
  /-- a failure raised inside `audit_logger.log_conversion_event` -/
  | logFailed
deriving DecidableEq

/-- `ExcelToXMLConverter.convert` (utils/converter.py lines 114-211) at the
file level.  `parsed` is the outcome of `pd.read_excel`; `encryptFails` and
`logFails` inject failures into the encryption stage and the audit-logging
stage.  Statement order as in the source: check the input exists, read,
reject an empty frame, build the tree, write the plaintext output, encrypt
to `output + ".enc"` (`with_suffix('.xml.enc')` on an `.xml` path) when
requested, log, and only then unlink the plaintext.  Every failure is
re-raised with the file state it left behind. -/
def convert_model (fs : List String) (inputFile outputFile : String)
    (parsed : Except Unit Table)
    (headerFields : List (List Char × Option (List Char)))
    (encryptOutput : Bool) (encryptFails logFails : Bool) :
    Except ConvErr Unit × List String :=
  if inputFile ∈ fs then
    match parsed with
    | .error _ => (.error .invalidFormat, fs)
    | .ok t =>
        if tableEmpty t then (.error .emptySource, fs)
        else
          match convertTree headerFields t with
          | .error e => (.error (.sanitizeFailed e), fs)
          | .ok _ =>
              let fs1 := writeFile outputFile fs
              if encryptOutput then
                if encryptFails then (.error .encryptFailed, fs1)
                else
                  let fs2 := writeFile (outputFile ++ ".enc") fs1
                  if logFails then (.error .logFailed, fs2)
                  else (.ok (), removeFile outputFile fs2)
              else
                if logFails then (.error .logFailed, fs1)
                else (.ok (), fs1)
  else (.error .inputNotFound, fs)

/-- HTTP-level failure of the convert route (the handler maps every
non-HTTP exception to a 500 response). -/
inductive RouteErr where
  | internal
deriving DecidableEq

/-- The upload path `{file_id}_input{suffix}` used by `convert_file`. -/
def inputPathOf (fileId : String) : String := fileId ++ "_input.xlsx"

/-- The output path `{file_id}_output.xml` used by `convert_file`. -/
def outputPathOf (fileId : String) : String := fileId ++ "_output.xml"

/-- `convert_file` (routes/converter.py lines 103-252): parse the header
fields into a dict, save the upload, run the converter, build the download
URL `{prefix}/download/{file_id}`, log (failure injectable via
`routeLogFails`), and in the `finally` block delete both the upload and the
plaintext output path regardless of outcome. -/
def route_convert_file (fs : List String) (fileId : String)
    (parsed : Except Unit Table)
    (headerArray : List (List Char × Option (List Char)))
    (encryptOutput : Bool) (encryptFails logFails routeLogFails : Bool) :
    Except RouteErr String × List String :=
  let inputPath := inputPathOf fileId
  let outputPath := outputPathOf fileId
  let fs1 := writeFile inputPath fs
  let r := convert_model fs1 inputPath outputPath parsed
      (buildHeaderFields headerArray) encryptOutput encryptFails logFails
  let fs2 := removeFile outputPath (removeFile inputPath r.2)
  match r.1 with
  | .error _ => (.error .internal, fs2)
  | .ok _ =>
      if routeLogFails then (.error .internal, fs2)
      else (.ok ("/api/v1/download/" ++ fileId), fs2)

/-- Failure of the download route. -/
inductive DownloadErr where
  /-- HTTPException 404, "File not found" -/
  | fileNotFound
deriving DecidableEq

/-- `download_file` (routes/converter.py lines 254-318): look for
`{file_id}.xml.enc` and `{file_id}.xml` in the output directory; with
neither present raise a 404; otherwise serve the plaintext file directly or
decrypt the encrypted one to a temp path and serve that (as a
`FileResponse` with media type `application/xml`).  The result is the path
served and the file state after the decrypt-to-temp step. -/
def download_file_model (fs : List String) (fileId : String) :
    Except DownloadErr (String × List String) :=
  let encryptedPath := fileId ++ ".xml.enc"
  let unencryptedPath := fileId ++ ".xml"
  if encryptedPath ∈ fs ∨ unencryptedPath ∈ fs then
    if unencryptedPath ∈ fs then .ok (unencryptedPath, fs)
    else
      let tempPath := "temp_" ++ fileId ++ ".xml"
      .ok (tempPath, writeFile tempPath fs)
  else .error .fileNotFound

example :
    route_convert_file [] "job1" (.ok ⟨["Age".data], [[Cell.int 30]]⟩)
      [] false false false false = (.ok "/api/v1/download/job1", []) := rfl
example :
    route_convert_file [] "job1" (.ok ⟨["Age".data], [[Cell.int 30]]⟩)
      [] true false false false =
      (.ok "/api/v1/download/job1", ["job1_output.xml.enc"]) := rfl
example : download_file_model [] "job1" = .error .fileNotFound := rfl
example : download_file_model ["job1_output.xml.enc"] "job1" = .error .fileNotFound := rfl

/- ======================================================================
   Section 5: concrete instances used by the refutations
   ====================================================================== -/

/-- Concrete plaintext for the padding-oracle refutation: one byte. -/
def cexPlain : List Nat := [65]

/-- Concrete all-zero 16-byte IV. -/
def cexIV : List Nat := List.replicate 16 0

/-- A genuine encryption of `cexPlain` (with the identity block
permutation standing in for the keyed AES permutation). -/
def cexGenuine : List Char := encrypt_data id cexIV cexPlain

/-- The genuine ciphertext with its last byte changed from 15 to 3. -/
def cexCorruptCt : List Nat := 65 :: (List.replicate 14 15 ++ [3])

/-- The corrupted blob: same IV, ciphertext corrupted in one byte. -/
def cexCorrupt : List Char := b64encode (cexIV ++ cexCorruptCt)

/- ======================================================================
   Theorems.  First, generic helper lemmas about the file-state model.
   ====================================================================== -/

theorem mem_writeFile_iff {p q : String} {fs : List String} :
    p ∈ writeFile q fs ↔ p ∈ fs ∨ p = q := by
  unfold writeFile
  split
  · constructor
    · exact fun h => Or.inl h
    · rintro (h | rfl)
      · exact h
      · assumption
  · simp

theorem mem_removeFile_iff {p q : String} {fs : List String} :
    p ∈ removeFile q fs ↔ p ∈ fs ∧ p ≠ q := by
  unfold removeFile
  simp [List.mem_filter]

theorem not_mem_removeFile {q : String} {fs : List String} :
    q ∉ removeFile q fs := by
  simp [mem_removeFile_iff]

/-- Appending a nonempty suffix changes a string. -/
theorem append_enc_ne (s : String) : s ++ ".enc" ≠ s := by
  intro h
  have h2 := congrArg String.length h
  simp [String.length_append] at h2
  exact absurd h2 (by decide)

/-- `dotenc` suffix distinguishes the encrypted path from the input path. -/
theorem encPath_ne_inputPath (fileId : String) :
    outputPathOf fileId ++ ".enc" ≠ inputPathOf fileId := by
  unfold outputPathOf inputPathOf
  intro h
  have h2 := congrArg String.data h
  simp only [String.data_append, List.append_assoc] at h2
  have h3 := List.append_cancel_left h2
  exact absurd h3 (by decide)

/- ======================================================================
   Claim C9: empty tabular source
   ====================================================================== -/

/-- C9: for every conversion run on a source with zero data rows, the
pipeline fails with the empty-source error (ValueError "Excel file is
empty", the spec's EmptySourceError) and the file state is returned
unchanged: the check happens before any output file is written. -/
theorem c9_empty_source_no_artifact (fs : List String) (inputFile outputFile : String)
    (t : Table) (hf : List (List Char × Option (List Char)))
    (encryptOutput encryptFails logFails : Bool)
    (hin : inputFile ∈ fs) (hrows : t.rows = []) :
    convert_model fs inputFile outputFile (.ok t) hf encryptOutput encryptFails logFails
      = (.error .emptySource, fs) := by
  unfold convert_model
  simp [hin, tableEmpty, hrows]

/-- Witness for C9 at a concrete input: a one-column, zero-row source. -/
theorem c9_empty_source_no_artifact_witness :
    convert_model ["in.xlsx"] "in.xlsx" "out.xml" (.ok ⟨["Region".data], []⟩)
      [("Region".data, some "North West".data)] true false false
      = (.error .emptySource, ["in.xlsx"]) :=
  c9_empty_source_no_artifact ["in.xlsx"] "in.xlsx" "out.xml" ⟨["Region".data], []⟩
    [("Region".data, some "North West".data)] true false false (by simp) rfl

/- ======================================================================
   Claim C2: download after convert
   ====================================================================== -/

/-- C2: evaluation of the convert/download route pair at a successful
conversion.  The convert route reports success and returns the download
reference `/api/v1/download/job1`, but with encryption off the `finally`
block has already deleted the output `job1_output.xml`, and with
encryption on the surviving artifact is `job1_output.xml.enc`, while the
download route only looks for `job1.xml.enc` and `job1.xml`; either way the
download of the returned reference fails with the 404 error instead of
serving the XML stream.  (The unknown-reference half of the claim does
hold: an empty store yields the 404.) -/
theorem c2_download_of_returned_reference_fails :
    route_convert_file [] "job1" (.ok ⟨["Age".data], [[Cell.int 30]]⟩)
        [] false false false false = (.ok "/api/v1/download/job1", [])
    ∧ download_file_model [] "job1" = .error .fileNotFound
    ∧ route_convert_file [] "job1" (.ok ⟨["Age".data], [[Cell.int 30]]⟩)
        [] true false false false =
        (.ok "/api/v1/download/job1", ["job1_output.xml.enc"])
    ∧ download_file_model ["job1_output.xml.enc"] "job1" = .error .fileNotFound :=
  ⟨rfl, rfl, rfl, rfl⟩

/- ======================================================================
   Claim C3: no plaintext at rest when encryption is requested
   ====================================================================== -/

theorem convert_model_fs_bound (fs : List String) (i o : String)
    (parsed : Except Unit Table) (hf : List (List Char × Option (List Char)))
    (enc ef lf : Bool) (p : String)
    (hp : p ∈ (convert_model fs i o parsed hf enc ef lf).2) :
    p ∈ fs ∨ p = o ∨ p = o ++ ".enc" := by
  by_cases hin : i ∈ fs
  · cases parsed with
    | error e => simp [convert_model, hin] at hp; exact Or.inl hp
    | ok t =>
      cases htE : tableEmpty t with
      | true => simp [convert_model, hin, htE] at hp; exact Or.inl hp
      | false =>
        cases htree : convertTree hf t with
        | error e =>
            simp [convert_model, hin, htE, htree] at hp; exact Or.inl hp
        | ok x =>
          cases enc with
          | false =>
            cases lf <;>
              · simp [convert_model, hin, htE, htree, mem_writeFile_iff] at hp
                tauto
          | true =>
            cases ef with
            | true =>
                simp [convert_model, hin, htE, htree, mem_writeFile_iff] at hp
                tauto
            | false =>
              cases lf <;>
                · simp [convert_model, hin, htE, htree, mem_writeFile_iff,
                    mem_removeFile_iff] at hp
                  tauto
  · simp [convert_model, hin] at hp; exact Or.inl hp

theorem convert_model_ok_enc (fs : List String) (i o : String)
    (parsed : Except Unit Table) (hf : List (List Char × Option (List Char)))
    (ef lf : Bool)
    (h : (convert_model fs i o parsed hf true ef lf).1 = .ok ()) :
    (o ++ ".enc") ∈ (convert_model fs i o parsed hf true ef lf).2 := by
  by_cases hin : i ∈ fs
  · cases parsed with
    | error e => simp [convert_model, hin] at h
    | ok t =>
      cases htE : tableEmpty t with
      | true => simp [convert_model, hin, htE] at h
      | false =>
        cases htree : convertTree hf t with
        | error e => simp [convert_model, hin, htE, htree] at h
        | ok x =>
          cases ef with
          | true => simp [convert_model, hin, htE, htree] at h
          | false =>
            cases lf with
            | true => simp [convert_model, hin, htE, htree] at h
            | false =>
              simp [convert_model, hin, htE, htree, mem_removeFile_iff,
                mem_writeFile_iff]
              exact append_enc_ne o
  · simp [convert_model, hin] at h

theorem route_convert_file_snd (fs : List String) (fileId : String)
    (parsed : Except Unit Table) (headerArray : List (List Char × Option (List Char)))
    (enc ef lf rlf : Bool) :
    (route_convert_file fs fileId parsed headerArray enc ef lf rlf).2 =
      removeFile (outputPathOf fileId) (removeFile (inputPathOf fileId)
        (convert_model (writeFile (inputPathOf fileId) fs) (inputPathOf fileId)
          (outputPathOf fileId) parsed (buildHeaderFields headerArray) enc ef lf).2) := by
  unfold route_convert_file
  cases hr : (convert_model (writeFile (inputPathOf fileId) fs) (inputPathOf fileId)
      (outputPathOf fileId) parsed (buildHeaderFields headerArray) enc ef lf).1 with
  | error e => simp [hr]
  | ok u => cases rlf <;> simp [hr]

theorem route_convert_file_fst_ok (fs : List String) (fileId : String)
    (parsed : Except Unit Table) (headerArray : List (List Char × Option (List Char)))
    (enc ef lf rlf : Bool) (url : String)
    (h : (route_convert_file fs fileId parsed headerArray enc ef lf rlf).1 = .ok url) :
    (convert_model (writeFile (inputPathOf fileId) fs) (inputPathOf fileId)
      (outputPathOf fileId) parsed (buildHeaderFields headerArray) enc ef lf).1 = .ok () := by
  unfold route_convert_file at h
  cases hr : (convert_model (writeFile (inputPathOf fileId) fs) (inputPathOf fileId)
      (outputPathOf fileId) parsed (buildHeaderFields headerArray) enc ef lf).1 with
  | error e => simp [hr] at h
  | ok u => rfl

/-- C3: with encryption requested, after the convert route finishes -- on
success, and also under an injected failure of the encryption stage, the
converter's audit-logging stage or the route's audit-logging stage -- the
plaintext output path is never present in the final file state; on success
the encrypted artifact is present; and nothing beyond the pre-existing
files and the encrypted artifact is left behind. -/
theorem c3_encrypted_run_leaves_no_plaintext (fs : List String) (fileId : String)
    (parsed : Except Unit Table) (headerArray : List (List Char × Option (List Char)))
    (encryptFails logFails routeLogFails : Bool) :
    outputPathOf fileId ∉
        (route_convert_file fs fileId parsed headerArray true encryptFails logFails routeLogFails).2
    ∧ ((route_convert_file fs fileId parsed headerArray true encryptFails logFails routeLogFails).1
          = .ok ("/api/v1/download/" ++ fileId) →
        (outputPathOf fileId ++ ".enc") ∈
          (route_convert_file fs fileId parsed headerArray true encryptFails logFails routeLogFails).2)
    ∧ ∀ p ∈ (route_convert_file fs fileId parsed headerArray true encryptFails logFails routeLogFails).2,
        p ∈ fs ∨ p = outputPathOf fileId ++ ".enc" := by
  rw [route_convert_file_snd]
  refine ⟨not_mem_removeFile, ?_, ?_⟩
  · intro hok
    have hcv := route_convert_file_fst_ok fs fileId parsed headerArray true
      encryptFails logFails routeLogFails _ hok
    have henc := convert_model_ok_enc (writeFile (inputPathOf fileId) fs)
      (inputPathOf fileId) (outputPathOf fileId) parsed
      (buildHeaderFields headerArray) encryptFails logFails hcv
    rw [mem_removeFile_iff, mem_removeFile_iff]
    exact ⟨⟨henc, encPath_ne_inputPath fileId⟩, append_enc_ne (outputPathOf fileId)⟩
  · intro p hp
    rw [mem_removeFile_iff, mem_removeFile_iff] at hp
    obtain ⟨⟨hp2, hpin⟩, hpout⟩ := hp
    have hb := convert_model_fs_bound (writeFile (inputPathOf fileId) fs)
      (inputPathOf fileId) (outputPathOf fileId) parsed
      (buildHeaderFields headerArray) true encryptFails logFails p hp2
    rcases hb with hb | hb | hb
    · rw [mem_writeFile_iff] at hb
      rcases hb with hb | hb
      · exact Or.inl hb
      · exact absurd hb hpin
    · exact absurd hb hpout
    · exact Or.inr hb

/-- Witness for C3 at a concrete input (a successful encrypted run, and an
injected failure of the converter's logging stage). -/
theorem c3_encrypted_run_leaves_no_plaintext_witness :
    (outputPathOf "job1" ∉
        (route_convert_file [] "job1" (.ok ⟨["Age".data], [[Cell.int 30]]⟩) [] true false false false).2
      ∧ ((route_convert_file [] "job1" (.ok ⟨["Age".data], [[Cell.int 30]]⟩) [] true false false false).1
            = .ok ("/api/v1/download/" ++ "job1") →
          (outputPathOf "job1" ++ ".enc") ∈
            (route_convert_file [] "job1" (.ok ⟨["Age".data], [[Cell.int 30]]⟩) [] true false false false).2)
      ∧ ∀ p ∈ (route_convert_file [] "job1" (.ok ⟨["Age".data], [[Cell.int 30]]⟩) [] true false false false).2,
          p ∈ ([] : List String) ∨ p = outputPathOf "job1" ++ ".enc")
    ∧ (outputPathOf "job1" ∉
        (route_convert_file [] "job1" (.ok ⟨["Age".data], [[Cell.int 30]]⟩) [] true false true false).2) :=
  ⟨c3_encrypted_run_leaves_no_plaintext [] "job1" (.ok ⟨["Age".data], [[Cell.int 30]]⟩) [] false false false,
   (c3_encrypted_run_leaves_no_plaintext [] "job1" (.ok ⟨["Age".data], [[Cell.int 30]]⟩) [] false true false).1⟩

/- ======================================================================
   Claims C4 and C5: sanitizer properties
   ====================================================================== -/

theorem tagChar_not_pySpace (c : Char) (h : isTagChar c = true) : pySpace c = false := by
  by_contra h2
  rw [Bool.not_eq_false] at h2
  simp only [pySpace, Bool.or_eq_true, beq_iff_eq] at h2
  rcases h2 with ((((rfl | rfl) | rfl) | rfl) | rfl) | rfl <;>
    exact absurd h (by decide)

theorem collapseRunsGo_of_no_match (p : Char → Bool) (l : List Char)
    (h : ∀ c ∈ l, p c = false) : ∀ b, collapseRunsGo p b l = l := by
  induction l with
  | nil => intro b; rfl
  | cons c rest ih =>
      intro b
      have hc : p c = false := h c (List.mem_cons_self c rest)
      simp only [collapseRunsGo, hc]
      rw [ih (fun x hx => h x (List.mem_cons_of_mem c hx)) false]
      simp

theorem collapseRuns_of_no_match (p : Char → Bool) (l : List Char)
    (h : ∀ c ∈ l, p c = false) : collapseRuns p l = l :=
  collapseRunsGo_of_no_match p l h false

theorem route_sanitize_mem (s : List Char) :
    ∀ c ∈ sanitize_xml_tag_route s, isTagChar c = true := by
  unfold sanitize_xml_tag_route
  intro c hc
  dsimp only at hc
  revert hc
  split <;> intro hc
  · exact List.of_mem_filter hc
  · rcases List.mem_cons.mp hc with rfl | hc
    · decide
    · exact List.of_mem_filter hc

theorem route_sanitize_starts (s : List Char) :
    startsTagOk (sanitize_xml_tag_route s) = true := by
  unfold sanitize_xml_tag_route
  dsimp only
  split
  · assumption
  · simp [startsTagOk]

theorem route_sanitize_fixpoint (u : List Char) (hu : ∀ c ∈ u, isTagChar c = true)
    (hsu : startsTagOk u = true) : sanitize_xml_tag_route u = u := by
  have hns : ∀ c ∈ u, pySpace c = false := fun c hc => tagChar_not_pySpace c (hu c hc)
  show (if startsTagOk ((collapseRuns pySpace u).filter isTagChar) = true
      then (collapseRuns pySpace u).filter isTagChar
      else '_' :: (collapseRuns pySpace u).filter isTagChar) = u
  rw [collapseRuns_of_no_match pySpace u hns, List.filter_eq_self.mpr hu, hsu]
  simp

theorem matchesTagRegex_of_parts (u : List Char) (hs : startsTagOk u = true)
    (hm : ∀ c ∈ u, isTagChar c = true) : matchesTagRegex u = true := by
  cases u with
  | nil => simp [startsTagOk] at hs
  | cons c rest =>
      simp only [matchesTagRegex, Bool.and_eq_true]
      exact ⟨hs, List.all_eq_true.mpr fun x hx => hm x (List.mem_cons_of_mem c hx)⟩

/-- C4 (amended): the route-level sanitize_xml_tag satisfies the claim for
every input: its result matches the tag regex and it is idempotent. -/
theorem c4_route_sanitize_regex_and_idempotent (s : List Char) :
    matchesTagRegex (sanitize_xml_tag_route s) = true
    ∧ sanitize_xml_tag_route (sanitize_xml_tag_route s) = sanitize_xml_tag_route s :=
  ⟨matchesTagRegex_of_parts _ (route_sanitize_starts s) (route_sanitize_mem s),
   route_sanitize_fixpoint _ (route_sanitize_mem s) (route_sanitize_starts s)⟩

/-- C4 (counterexample): as stated over the cited implementations the claim
fails: the service-level sanitize_xml_tag maps the empty string to the
empty string, which does not match the regex, and the utils-level
_sanitize_xml_tag returns a digit-leading name, which does not match the
regex either. -/
theorem c4_counterexample :
    sanitize_xml_tag_service "".data = [] ∧ matchesTagRegex [] = false
    ∧ sanitize_xml_tag_utils "123".data = .ok "123".data
    ∧ matchesTagRegex "123".data = false :=
  ⟨rfl, rfl, rfl, rfl⟩

theorem mem_dropWhile_of_not (p : Char → Bool) (l : List Char) (c : Char)
    (hc : c ∈ l) (hp : p c = false) : c ∈ l.dropWhile p := by
  have hsplit := List.takeWhile_append_dropWhile (p := p) (l := l)
  rw [← hsplit] at hc
  rcases List.mem_append.mp hc with h | h
  · exact absurd (List.mem_takeWhile_imp h) (by simp [hp])
  · exact h

theorem mem_stripChars_of_not (p : Char → Bool) (l : List Char) (c : Char)
    (hc : c ∈ l) (hp : p c = false) : c ∈ stripChars p l := by
  unfold stripChars
  rw [List.mem_reverse]
  refine mem_dropWhile_of_not p _ c ?_ hp
  rw [List.mem_reverse]
  exact mem_dropWhile_of_not p l c hc hp

/-- C5 (amended): row/column-name sanitization in the pipeline is not
total: any name containing a character that is neither in `[a-zA-Z0-9_]`
nor whitespace makes `_sanitize_xml_tag` raise the invalid-characters
ValueError; there is no fallback token. -/
theorem c5_sanitize_raises_on_disallowed (s : List Char) (c : Char)
    (hc : c ∈ s) (hw : isWordChar c = false) (hsp : pySpace c = false) :
    sanitize_xml_tag_utils s = .error .invalidChars := by
  unfold sanitize_xml_tag_utils
  have hs : s ≠ [] := fun h => by subst h; exact absurd hc (List.not_mem_nil c)
  rw [if_neg hs]
  have hmem : c ∈ stripChars pySpace s := mem_stripChars_of_not pySpace s c hc hsp
  have hany : (stripChars pySpace s).any (fun x => !isWordChar x) = true :=
    List.any_eq_true.mpr ⟨c, hmem, by simp [hw]⟩
  simp only [hany, if_pos]

/-- Witness for C5's amended statement at the concrete name "@". -/
theorem c5_sanitize_raises_on_disallowed_witness :
    ('@' ∈ "@".data ∧ isWordChar '@' = false ∧ pySpace '@' = false)
    ∧ sanitize_xml_tag_utils "@".data = .error .invalidChars :=
  ⟨⟨by decide, by decide, by decide⟩,
   c5_sanitize_raises_on_disallowed "@".data '@' (by decide) (by decide) (by decide)⟩

/-- C5 (counterexample): the claim's totality-with-EMPTY_TAG-fallback fails
on the cited code: a name made entirely of disallowed characters makes the
row/column sanitizer raise, and no call path returns an EMPTY_TAG token
(the literal exists only in the standalone main.py variant, where it is
unreachable). -/
theorem c5_counterexample :
    sanitize_xml_tag_utils "@@@".data = .error .invalidChars
    ∧ sanitize_xml_tag_utils "".data = .error .emptyTag :=
  ⟨rfl, rfl⟩

/- ======================================================================
   Claim C6: shape of the built tree, and the spec's worked example
   ====================================================================== -/

/-- C6: evaluation at the claim's own example.  The converter rejects the
column name "First Name" with the invalid-characters ValueError, because
`_sanitize_xml_tag` refuses any name containing a space (its
space-replacement step is unreachable), so no tree is produced at all.
Moreover, on an otherwise identical source whose column names carry no
spaces, the records are attached to a `Data` element that is a sibling of
an empty `BODY` element rather than its child. -/
theorem c6_example_rejected_and_body_left_empty :
    convertTree [] ⟨["First Name".data, "Age".data],
        [[Cell.text "Jo".data, Cell.int 30]]⟩ = .error .invalidChars
    ∧ convertTree [] ⟨["First_Name".data, "Age".data],
        [[Cell.text "Jo".data, Cell.int 30]]⟩ =
      .ok (.elem "CALLREPORT".data []
        [.elem "BODY".data [] [],
         .elem "Data".data []
           [.elem "Row".data []
             [.elem "First_Name".data "Jo".data [],
              .elem "Age".data "30".data []]]]) :=
  ⟨rfl, rfl⟩

/- ======================================================================
   Claim C7: missing cells still produce a field element with empty text
   ====================================================================== -/

theorem sanitize_ok_ne_nil (s t : List Char)
    (h : sanitize_xml_tag_utils s = .ok t) : t ≠ [] := by
  unfold sanitize_xml_tag_utils at h
  dsimp only at h
  split at h
  · simp at h
  · split at h
    · simp at h
    · split at h
      · simp at h
      · split at h <;> split at h
        · simp at h
        · next hne =>
            simp only [Except.ok.injEq] at h
            rw [← h]
            exact hne
        · simp at h
        · next hne =>
            simp only [Except.ok.injEq] at h
            rw [← h]
            exact hne

theorem buildFields_ok_get (l : List (List Char × List Char)) (fs : List XNode)
    (h : buildFields l = .ok fs) (i : Nat) (nv : List Char × List Char)
    (hi : l[i]? = some nv) :
    ∃ t, sanitize_xml_tag_utils nv.1 = .ok t ∧ fs[i]? = some (.elem t nv.2 []) := by
  induction l generalizing fs i nv with
  | nil => simp at hi
  | cons hd tl ih =>
      unfold buildFields at h
      cases hs : sanitize_xml_tag_utils hd.1 with
      | error e => rw [hs] at h; simp at h
      | ok t =>
          rw [hs] at h
          cases hr : buildFields tl with
          | error e => rw [hr] at h; simp at h
          | ok fs' =>
              rw [hr] at h
              simp only [Except.ok.injEq] at h
              have ht : t ≠ [] := sanitize_ok_ne_nil hd.1 t hs
              rw [if_neg ht] at h
              cases i with
              | zero =>
                  simp only [List.getElem?_cons_zero, Option.some.injEq] at hi
                  subst hi
                  refine ⟨t, hs, ?_⟩
                  rw [← h]
                  simp
              | succ n =>
                  simp only [List.getElem?_cons_succ] at hi
                  obtain ⟨t', hst', hget⟩ := ih fs' hr n nv hi
                  refine ⟨t', hst', ?_⟩
                  rw [← h]
                  simpa using hget

theorem buildRows_ok_get (recs : List (List (List Char × List Char)))
    (elems : List XNode) (h : buildRows recs = .ok elems) (j : Nat)
    (rec : List (List Char × List Char)) (hj : recs[j]? = some rec) :
    ∃ fields, buildFields rec = .ok fields
      ∧ elems[j]? = some (.elem "Row".data [] fields) := by
  induction recs generalizing elems j rec with
  | nil => simp at hj
  | cons hd tl ih =>
      unfold buildRows at h
      cases hf : buildFields hd with
      | error e => rw [hf] at h; simp at h
      | ok fields =>
          rw [hf] at h
          cases hr : buildRows tl with
          | error e => rw [hr] at h; simp at h
          | ok rs =>
              rw [hr] at h
              simp only [Except.ok.injEq] at h
              cases j with
              | zero =>
                  simp only [List.getElem?_cons_zero, Option.some.injEq] at hj
                  subst hj
                  refine ⟨fields, hf, ?_⟩
                  rw [← h]
                  simp
              | succ n =>
                  simp only [List.getElem?_cons_succ] at hj
                  obtain ⟨fields', hf', hget⟩ := ih rs hr n rec hj
                  refine ⟨fields', hf', ?_⟩
                  rw [← h]
                  simpa using hget

theorem zip_getElem (l1 : List (List Char)) (l2 : List (List Char)) (i : Nat)
    (a b : List Char) (h1 : l1[i]? = some a) (h2 : l2[i]? = some b) :
    (l1.zip l2)[i]? = some (a, b) := by
  induction l1 generalizing l2 i with
  | nil => simp at h1
  | cons hd tl ih =>
      cases l2 with
      | nil => simp at h2
      | cons hd2 tl2 =>
          cases i with
          | zero => simp at h1 h2; simp [List.zip_cons_cons, h1, h2]
          | succ n =>
              simp only [List.getElem?_cons_succ] at h1 h2
              simpa [List.zip_cons_cons] using ih tl2 n h1 h2

/-- C7: for every source whose conversion to the Data section succeeds, a
row with a missing cell at column index i still yields a field element for
that column at the same index i, with empty text; the element is not
omitted.  (Its tag is the sanitized column name.) -/
theorem c7_missing_cell_field_present (cols : List (List Char))
    (rows : List (List Cell)) (j i : Nat) (row : List Cell) (c : List Char)
    (elems : List XNode)
    (hrow : rows[j]? = some row)
    (hcol : cols[i]? = some c)
    (hcell : row[i]? = some Cell.na)
    (hok : buildRows (processExcelData ⟨cols, rows⟩) = .ok elems) :
    ∃ fields t, elems[j]? = some (.elem "Row".data [] fields)
      ∧ sanitize_xml_tag_utils c = .ok t
      ∧ fields[i]? = some (.elem t [] []) := by
  have hrec : (processExcelData ⟨cols, rows⟩)[j]? = some (cols.zip (row.map coerceCell)) := by
    unfold processExcelData
    simp [List.getElem?_map, hrow]
  obtain ⟨fields, hbf, hget⟩ :=
    buildRows_ok_get (processExcelData ⟨cols, rows⟩) elems hok j
      (cols.zip (row.map coerceCell)) hrec
  have hmap : (row.map coerceCell)[i]? = some [] := by
    simp [List.getElem?_map, hcell, coerceCell]
  have hzip := zip_getElem cols (row.map coerceCell) i c [] hcol hmap
  obtain ⟨t, hst, hfget⟩ := buildFields_ok_get _ fields hbf i (c, []) hzip
  exact ⟨fields, t, hget, hst, hfget⟩

/-- Witness for C7 at a concrete table: one row whose second column is
missing. -/
theorem c7_missing_cell_field_present_witness :
    ∃ fields t,
      [XNode.elem "Row".data [] [.elem "Name".data "Jo".data [], .elem "Age".data [] []]][0]?
        = some (.elem "Row".data [] fields)
      ∧ sanitize_xml_tag_utils "Age".data = .ok t
      ∧ fields[1]? = some (.elem t [] []) :=
  c7_missing_cell_field_present ["Name".data, "Age".data]
    [[Cell.text "Jo".data, Cell.na]] 0 1 [Cell.text "Jo".data, Cell.na]
    "Age".data
    [XNode.elem "Row".data [] [.elem "Name".data "Jo".data [], .elem "Age".data [] []]]
    rfl rfl rfl rfl

/- ======================================================================
   Claim C10: duplicate header-field names collapse, last entry wins
   ====================================================================== -/

theorem getLast?_cons_getD {α : Type} (a : α) (l : List α) :
    (a :: l).getLast? = some (l.getLast?.getD a) := by
  induction l generalizing a with
  | nil => rfl
  | cons b m ih =>
      rw [List.getLast?_cons_cons, ih b]
      cases hm : m.getLast? <;> simp [ih, hm]

theorem getLast?_eq_none_iff {α : Type} (l : List α) :
    l.getLast? = none ↔ l = [] := by
  cases l with
  | nil => simp
  | cons a m => rw [getLast?_cons_getD]; simp

theorem dictFind_insert_self (k : List Char) (v : Option (List Char))
    (d : List (List Char × Option (List Char))) :
    dictFind k (dictInsert k v d) = some v := by
  induction d with
  | nil => simp [dictInsert, dictFind]
  | cons hd tl ih =>
      obtain ⟨k1, v1⟩ := hd
      unfold dictInsert
      by_cases hk : k1 = k
      · rw [if_pos hk]
        unfold dictFind
        rw [if_pos hk]
      · rw [if_neg hk]
        unfold dictFind
        rw [if_neg hk]
        exact ih

theorem dictFind_insert_other (k k2 : List Char) (v : Option (List Char))
    (d : List (List Char × Option (List Char))) (hne : k ≠ k2) :
    dictFind k2 (dictInsert k v d) = dictFind k2 d := by
  induction d with
  | nil => simp [dictInsert, dictFind, hne]
  | cons hd tl ih =>
      obtain ⟨k1, v1⟩ := hd
      unfold dictInsert
      by_cases hk : k1 = k
      · rw [if_pos hk]
        unfold dictFind
        have hk2 : ¬(k1 = k2) := fun h => hne (hk ▸ h)
        rw [if_neg hk2, if_neg hk2]
      · rw [if_neg hk]
        unfold dictFind
        by_cases hk2 : k1 = k2
        · rw [if_pos hk2, if_pos hk2]
        · rw [if_neg hk2, if_neg hk2]
          exact ih

theorem mem_keys_dictInsert (k k2 : List Char) (v : Option (List Char))
    (d : List (List Char × Option (List Char)))
    (h : k2 ∈ (dictInsert k v d).map Prod.fst) :
    k2 ∈ d.map Prod.fst ∨ k2 = k := by
  induction d with
  | nil => simp [dictInsert] at h; exact Or.inr h
  | cons hd tl ih =>
      obtain ⟨k1, v1⟩ := hd
      unfold dictInsert at h
      by_cases hk : k1 = k
      · rw [if_pos hk] at h
        simp only [List.map_cons, List.mem_cons] at h
        rcases h with h | h
        · exact Or.inl (by simp [h])
        · exact Or.inl (by simp [h])
      · rw [if_neg hk] at h
        simp only [List.map_cons, List.mem_cons] at h
        rcases h with h | h
        · exact Or.inl (by simp [h])
        · rcases ih h with h2 | h2
          · exact Or.inl (by simp [h2])
          · exact Or.inr h2

theorem keys_nodup_dictInsert (k : List Char) (v : Option (List Char))
    (d : List (List Char × Option (List Char)))
    (h : (d.map Prod.fst).Nodup) :
    ((dictInsert k v d).map Prod.fst).Nodup := by
  induction d with
  | nil => simp [dictInsert]
  | cons hd tl ih =>
      obtain ⟨k1, v1⟩ := hd
      unfold dictInsert
      simp only [List.map_cons, List.nodup_cons] at h
      by_cases hk : k1 = k
      · rw [if_pos hk]
        simp only [List.map_cons, List.nodup_cons]
        exact ⟨h.1, h.2⟩
      · rw [if_neg hk]
        simp only [List.map_cons, List.nodup_cons]
        refine ⟨?_, ih h.2⟩
        intro hmem
        rcases mem_keys_dictInsert k k1 v tl hmem with h2 | h2
        · exact h.1 h2
        · exact hk h2

theorem dictInsert_ne_nil (k : List Char) (v : Option (List Char))
    (d : List (List Char × Option (List Char))) : dictInsert k v d ≠ [] := by
  cases d with
  | nil => simp [dictInsert]
  | cons hd tl =>
      obtain ⟨k1, v1⟩ := hd
      unfold dictInsert
      by_cases hk : k1 = k
      · rw [if_pos hk]; simp
      · rw [if_neg hk]; simp

theorem replaceSpaces_char_idem (c : Char) :
    (if ((if c == ' ' then '_' else c) : Char) == ' ' then '_' else if c == ' ' then '_' else c)
      = (if c == ' ' then '_' else c) := by
  by_cases hc : c = ' ' <;> simp [hc]

theorem replaceSpaces_idem (s : List Char) :
    replaceSpaces (replaceSpaces s) = replaceSpaces s := by
  unfold replaceSpaces
  rw [List.map_map]
  refine List.map_congr_left ?_
  intro c _
  exact replaceSpaces_char_idem c

/-- Last-wins aggregation: looking up `n` in the dict built by folding the
header array equals the value of the last array entry whose
space-collapsed name is `n` (falling back to the initial dict). -/
theorem dictFind_foldl (arr : List (List Char × Option (List Char)))
    (d : List (List Char × Option (List Char))) (n : List Char) :
    dictFind n (arr.foldl (fun d kv => dictInsert (replaceSpaces kv.1) kv.2 d) d) =
      match (arr.filter (fun kv => decide (replaceSpaces kv.1 = n))).getLast? with
      | some kv => some kv.2
      | none => dictFind n d := by
  induction arr generalizing d with
  | nil => rfl
  | cons kv rest ih =>
      simp only [List.foldl_cons, List.filter_cons, decide_eq_true_eq]
      by_cases hp : replaceSpaces kv.1 = n
      · rw [if_pos hp, ih]
        cases hrest : (rest.filter (fun kv => decide (replaceSpaces kv.1 = n))).getLast? with
        | some kv2 =>
            rw [getLast?_cons_getD, hrest]
            simp
        | none =>
            rw [getLast?_cons_getD, hrest]
            simp only [Option.getD_none]
            rw [← hp, dictFind_insert_self]
      · rw [if_neg hp, ih]
        cases hrest : (rest.filter (fun kv => decide (replaceSpaces kv.1 = n))).getLast? with
        | some kv2 => rfl
        | none => exact dictFind_insert_other (replaceSpaces kv.1) n kv.2 d hp

theorem buildHeaderFields_keys_nodup (arr : List (List Char × Option (List Char))) :
    ((buildHeaderFields arr).map Prod.fst).Nodup := by
  unfold buildHeaderFields
  suffices h : ∀ d : List (List Char × Option (List Char)), (d.map Prod.fst).Nodup →
      ((arr.foldl (fun d kv => dictInsert (replaceSpaces kv.1) kv.2 d) d).map Prod.fst).Nodup by
    exact h [] (by simp)
  induction arr with
  | nil => intro d hd; exact hd
  | cons kv rest ih =>
      intro d hd
      simp only [List.foldl_cons]
      exact ih _ (keys_nodup_dictInsert _ _ _ hd)

theorem buildHeaderFields_keys_spacefree (arr : List (List Char × Option (List Char))) :
    ∀ k ∈ (buildHeaderFields arr).map Prod.fst, replaceSpaces k = k := by
  unfold buildHeaderFields
  suffices h : ∀ d : List (List Char × Option (List Char)),
      (∀ k ∈ d.map Prod.fst, replaceSpaces k = k) →
      ∀ k ∈ (arr.foldl (fun d kv => dictInsert (replaceSpaces kv.1) kv.2 d) d).map Prod.fst,
        replaceSpaces k = k by
    exact h [] (by simp)
  induction arr with
  | nil => intro d hd; exact hd
  | cons kv rest ih =>
      intro d hd
      simp only [List.foldl_cons]
      refine ih _ ?_
      intro k hk
      rcases mem_keys_dictInsert (replaceSpaces kv.1) k kv.2 d hk with h2 | h2
      · exact hd k h2
      · rw [h2]
        exact replaceSpaces_idem kv.1

theorem buildHeaderFields_ne_nil (arr : List (List Char × Option (List Char)))
    (h : arr ≠ []) : buildHeaderFields arr ≠ [] := by
  unfold buildHeaderFields
  suffices hgen : ∀ (a : List (List Char × Option (List Char)))
      (d : List (List Char × Option (List Char))), (d ≠ [] ∨ a ≠ []) →
      a.foldl (fun d kv => dictInsert (replaceSpaces kv.1) kv.2 d) d ≠ [] by
    exact hgen arr [] (Or.inr h)
  intro a
  induction a with
  | nil =>
      intro d hd
      rcases hd with hd | hd
      · exact hd
      · exact absurd rfl hd
  | cons kv rest ih =>
      intro d _
      simp only [List.foldl_cons]
      exact ih _ (Or.inl (dictInsert_ne_nil _ _ _))

theorem headerChildren_filter_nil (d : List (List Char × Option (List Char)))
    (n : List Char) (hsp : ∀ k ∈ d.map Prod.fst, replaceSpaces k = k)
    (hn : n ∉ d.map Prod.fst) :
    (d.map (fun kv => XNode.elem (replaceSpaces kv.1) (kv.2.getD []) [])).filter
      (fun x => decide (tagOf x = n)) = [] := by
  induction d with
  | nil => rfl
  | cons hd tl ih =>
      simp only [List.map_cons, List.filter_cons, decide_eq_true_eq]
      have hsp1 : replaceSpaces hd.1 = hd.1 := hsp hd.1 (by simp)
      have hne : tagOf (XNode.elem (replaceSpaces hd.1) (hd.2.getD []) []) ≠ n := by
        simp only [tagOf, hsp1]
        intro hcontra
        exact hn (by simp [hcontra])
      rw [if_neg hne]
      exact ih (fun k hk => hsp k (by simp [hk])) (fun hk => hn (by simp [hk]))

theorem headerChildren_filter_single (d : List (List Char × Option (List Char)))
    (n : List Char) (v : Option (List Char))
    (hnd : (d.map Prod.fst).Nodup)
    (hsp : ∀ k ∈ d.map Prod.fst, replaceSpaces k = k)
    (hfind : dictFind n d = some v) :
    (d.map (fun kv => XNode.elem (replaceSpaces kv.1) (kv.2.getD []) [])).filter
      (fun x => decide (tagOf x = n)) = [XNode.elem n (v.getD []) []] := by
  induction d with
  | nil => simp [dictFind] at hfind
  | cons hd tl ih =>
      obtain ⟨k1, v1⟩ := hd
      simp only [List.map_cons, List.filter_cons, decide_eq_true_eq]
      have hsp1 : replaceSpaces k1 = k1 := hsp k1 (by simp)
      simp only [List.map_cons, List.nodup_cons] at hnd
      unfold dictFind at hfind
      by_cases hk : k1 = n
      · rw [if_pos hk] at hfind
        simp only [Option.some.injEq] at hfind
        have htag : tagOf (XNode.elem (replaceSpaces k1) (v1.getD []) []) = n := by
          show replaceSpaces k1 = n
          rw [hsp1, hk]
        rw [if_pos htag]
        rw [headerChildren_filter_nil tl n (fun k hk2 => hsp k (by simp [hk2]))
          (hk ▸ hnd.1)]
        rw [hsp1, hk, hfind]
      · rw [if_neg hk] at hfind
        have hne : tagOf (XNode.elem (replaceSpaces k1) (v1.getD []) []) ≠ n := by
          show replaceSpaces k1 ≠ n
          rw [hsp1]
          exact hk
        rw [if_neg hne]
        exact ih hnd.2 (fun k hk2 => hsp k (by simp [hk2])) hfind

/-- C10: whenever at least one supplied header entry's name collapses (by
space-to-underscore replacement) to `n`, the constructed header holds
exactly one element tagged `n`, and its text is the value of the last such
entry. -/
theorem c10_header_duplicate_last_wins (arr : List (List Char × Option (List Char)))
    (n : List Char) (last : List Char × Option (List Char))
    (hlast : (arr.filter (fun kv => decide (replaceSpaces kv.1 = n))).getLast? = some last) :
    ∃ children, createHeader (buildHeaderFields arr) = [.elem "HEADER".data [] children]
      ∧ children.filter (fun x => decide (tagOf x = n))
          = [.elem n (last.2.getD []) []] := by
  have harr : arr ≠ [] := by
    intro hcontra
    rw [hcontra] at hlast
    simp at hlast
  have hne := buildHeaderFields_ne_nil arr harr
  have hfind : dictFind n (buildHeaderFields arr) = some last.2 := by
    unfold buildHeaderFields
    rw [dictFind_foldl, hlast]
  refine ⟨(buildHeaderFields arr).map
    (fun kv => XNode.elem (replaceSpaces kv.1) (kv.2.getD []) []), ?_, ?_⟩
  · unfold createHeader
    rw [if_neg hne]
  · exact headerChildren_filter_single (buildHeaderFields arr) n last.2
      (buildHeaderFields_keys_nodup arr) (buildHeaderFields_keys_spacefree arr) hfind

/-- Witness for C10: two entries whose names collapse to the same tag. -/
theorem c10_header_duplicate_last_wins_witness :
    ([("A B".data, some "1".data), ("A_B".data, some "2".data)].filter
        (fun kv => decide (replaceSpaces kv.1 = "A_B".data))).getLast?
      = some ("A_B".data, some "2".data)
    ∧ ∃ children,
        createHeader (buildHeaderFields
          [("A B".data, some "1".data), ("A_B".data, some "2".data)])
          = [.elem "HEADER".data [] children]
        ∧ children.filter (fun x => decide (tagOf x = "A_B".data))
            = [.elem "A_B".data ((some "2".data).getD []) []] :=
  ⟨rfl, c10_header_duplicate_last_wins
    [("A B".data, some "1".data), ("A_B".data, some "2".data)]
    "A_B".data ("A_B".data, some "2".data) rfl⟩

/- ======================================================================
   Claims C1 and C8: the cipher layer.  Base64 round trip first.
   ====================================================================== -/

theorem sextet_round : ∀ s : Nat, s < 64 → sextetOfChar (sextetChar s) = some s := by
  decide

theorem sextetChar_ne_pad : ∀ s : Nat, s < 64 → sextetChar s ≠ '=' := by
  decide

theorem b64encode_ne_nil (l : List Nat) (h : l ≠ []) : b64encode l ≠ [] := by
  match l with
  | [] => exact absurd rfl h
  | [a] => simp [b64encode]
  | [a, b] => simp [b64encode]
  | a :: b :: c :: rest => simp [b64encode]

theorem b64decode_encode_aux (n : Nat) :
    ∀ l : List Nat, l.length ≤ n → (∀ x ∈ l, x < 256) →
      b64decode (b64encode l) = some l := by
  induction n using Nat.strong_induction_on with
  | _ n ih =>
    intro l hlen hb
    rcases l with _ | ⟨a, _ | ⟨b, _ | ⟨c, rest⟩⟩⟩
    · rfl
    · have ha : a < 256 := hb a (by simp)
      show b64decode [sextetChar (a * 65536 / 262144),
        sextetChar (a * 65536 / 4096 % 64), '=', '='] = some [a]
      simp only [b64decode]
      rw [if_pos (And.intro trivial trivial),
        sextet_round _ (show a * 65536 / 262144 < 64 by omega),
        sextet_round _ (show a * 65536 / 4096 % 64 < 64 by omega)]
      dsimp only
      rw [if_pos trivial]
      have hval : (a * 65536 / 262144 * 262144 + a * 65536 / 4096 % 64 * 4096) / 65536 = a := by
        omega
      rw [hval]
    · have ha : a < 256 := hb a (by simp)
      have hbb : b < 256 := hb b (by simp)
      show b64decode [sextetChar ((a * 65536 + b * 256) / 262144),
        sextetChar ((a * 65536 + b * 256) / 4096 % 64),
        sextetChar ((a * 65536 + b * 256) / 64 % 64), '='] = some [a, b]
      simp only [b64decode]
      rw [if_pos (And.intro trivial trivial),
        sextet_round _ (show (a * 65536 + b * 256) / 262144 < 64 by omega),
        sextet_round _ (show (a * 65536 + b * 256) / 4096 % 64 < 64 by omega)]
      dsimp only
      rw [if_neg (sextetChar_ne_pad _ (show (a * 65536 + b * 256) / 64 % 64 < 64 by omega)),
        sextet_round _ (show (a * 65536 + b * 256) / 64 % 64 < 64 by omega)]
      dsimp only
      have h1 : ((a * 65536 + b * 256) / 262144 * 262144
          + (a * 65536 + b * 256) / 4096 % 64 * 4096
          + (a * 65536 + b * 256) / 64 % 64 * 64) / 65536 = a := by omega
      have h2 : ((a * 65536 + b * 256) / 262144 * 262144
          + (a * 65536 + b * 256) / 4096 % 64 * 4096
          + (a * 65536 + b * 256) / 64 % 64 * 64) / 256 % 256 = b := by omega
      rw [h1, h2]
    · have ha : a < 256 := hb a (by simp)
      have hbb : b < 256 := hb b (by simp)
      have hcc : c < 256 := hb c (by simp)
      have hrest : ∀ x ∈ rest, x < 256 := fun x hx => hb x (by simp [hx])
      have hlrest : rest.length < n := by
        simp only [List.length_cons] at hlen
        omega
      have hihrest := ih rest.length hlrest rest le_rfl hrest
      show b64decode (sextetChar ((a * 65536 + b * 256 + c) / 262144) ::
        sextetChar ((a * 65536 + b * 256 + c) / 4096 % 64) ::
        sextetChar ((a * 65536 + b * 256 + c) / 64 % 64) ::
        sextetChar ((a * 65536 + b * 256 + c) % 64) :: b64encode rest)
        = some (a :: b :: c :: rest)
      simp only [b64decode]
      rw [if_neg (fun hcontra =>
        sextetChar_ne_pad _ (show (a * 65536 + b * 256 + c) % 64 < 64 by omega) hcontra.2)]
      rw [sextet_round _ (show (a * 65536 + b * 256 + c) / 262144 < 64 by omega),
        sextet_round _ (show (a * 65536 + b * 256 + c) / 4096 % 64 < 64 by omega),
        sextet_round _ (show (a * 65536 + b * 256 + c) / 64 % 64 < 64 by omega),
        sextet_round _ (show (a * 65536 + b * 256 + c) % 64 < 64 by omega)]
      dsimp only
      rw [hihrest]
      dsimp only
      have h1 : ((a * 65536 + b * 256 + c) / 262144 * 262144
          + (a * 65536 + b * 256 + c) / 4096 % 64 * 4096
          + (a * 65536 + b * 256 + c) / 64 % 64 * 64
          + (a * 65536 + b * 256 + c) % 64) / 65536 = a := by omega
      have h2 : ((a * 65536 + b * 256 + c) / 262144 * 262144
          + (a * 65536 + b * 256 + c) / 4096 % 64 * 4096
          + (a * 65536 + b * 256 + c) / 64 % 64 * 64
          + (a * 65536 + b * 256 + c) % 64) / 256 % 256 = b := by omega
      have h3 : ((a * 65536 + b * 256 + c) / 262144 * 262144
          + (a * 65536 + b * 256 + c) / 4096 % 64 * 4096
          + (a * 65536 + b * 256 + c) / 64 % 64 * 64
          + (a * 65536 + b * 256 + c) % 64) % 256 = c := by omega
      rw [h1, h2, h3]

/-- `b64decode` inverts `b64encode` on every byte string. -/
theorem b64decode_encode (l : List Nat) (hb : ∀ x ∈ l, x < 256) :
    b64decode (b64encode l) = some l :=
  b64decode_encode_aux l.length l le_rfl hb

theorem getLast?_replicate (k x : Nat) (h : k ≠ 0) :
    (List.replicate k x).getLast? = some x := by
  induction k with
  | zero => exact absurd rfl h
  | succ m ih =>
      rw [List.replicate_succ, getLast?_cons_getD]
      cases m with
      | zero => rfl
      | succ m2 => rw [ih (Nat.succ_ne_zero m2)]; rfl

theorem getLast?_append_right {α : Type} (l1 l2 : List α) (h : l2 ≠ []) :
    (l1 ++ l2).getLast? = l2.getLast? := by
  obtain ⟨y, hy⟩ : ∃ y, l2.getLast? = some y := by
    cases l2 with
    | nil => exact absurd rfl h
    | cons z zs => exact ⟨zs.getLast?.getD z, getLast?_cons_getD z zs⟩
  induction l1 with
  | nil => rfl
  | cons a l1 ih =>
      rw [List.cons_append, getLast?_cons_getD, ih, hy]
      rfl

theorem pad_length (data : List Nat) :
    (pad data).length = data.length + (16 - data.length % 16) := by
  unfold pad
  rw [List.length_append, List.length_replicate]

theorem pad_length_dvd (data : List Nat) : 16 ∣ (pad data).length := by
  rw [pad_length]
  have h : data.length % 16 < 16 := Nat.mod_lt _ (by omega)
  omega

theorem pad_mem_lt (data : List Nat) (h : ∀ x ∈ data, x < 256) :
    ∀ x ∈ pad data, x < 256 := by
  intro x hx
  unfold pad at hx
  rcases List.mem_append.mp hx with hx | hx
  · exact h x hx
  · have := List.eq_of_mem_replicate hx
    have hm : data.length % 16 < 16 := Nat.mod_lt _ (by omega)
    omega

theorem unpad_pad (data : List Nat) : unpad (pad data) = some data := by
  have hm : data.length % 16 < 16 := Nat.mod_lt _ (by omega)
  have hk : 16 - data.length % 16 ≠ 0 := by omega
  unfold pad unpad
  rw [getLast?_append_right _ _ (fun hc => hk ((List.replicate_eq_nil_iff _).mp hc)),
    getLast?_replicate _ _ hk]
  dsimp only
  rw [if_neg hk]
  rw [List.length_append, List.length_replicate]
  have hsub : data.length + (16 - data.length % 16) - (16 - data.length % 16)
      = data.length := by omega
  rw [hsub, List.take_left]

theorem xorBytes_cancel (a p : List Nat) (h : a.length = p.length) :
    xorBytes (xorBytes a p) p = a := by
  induction a generalizing p with
  | nil => rfl
  | cons x xs ih =>
      cases p with
      | nil => simp at h
      | cons y ys =>
          simp only [List.length_cons, Nat.succ.injEq] at h
          show ((x ^^^ y) ^^^ y) :: xorBytes (xorBytes xs ys) ys = x :: xs
          rw [Nat.xor_cancel_right, ih ys h]

theorem xorBytes_length (a b : List Nat) :
    (xorBytes a b).length = min a.length b.length :=
  List.length_zipWith Nat.xor a b

theorem xorBytes_mem_lt (a : List Nat) :
    ∀ b : List Nat, (∀ x ∈ a, x < 256) → (∀ x ∈ b, x < 256) →
      ∀ x ∈ xorBytes a b, x < 256 := by
  induction a with
  | nil => intro b _ _ x hx; simp [xorBytes] at hx
  | cons c cs ih =>
      intro b ha hb x hx
      cases b with
      | nil => simp [xorBytes] at hx
      | cons d ds =>
          simp only [xorBytes, List.zipWith_cons_cons] at hx
          rcases List.mem_cons.mp hx with rfl | hx
          · have h256 : (2 : Nat) ^ 8 = 256 := by norm_num
            rw [← h256]
            exact Nat.xor_lt_two_pow (by rw [h256]; exact ha c (by simp))
              (by rw [h256]; exact hb d (by simp))
          · exact ih ds (fun y hy => ha y (by simp [hy]))
              (fun y hy => hb y (by simp [hy])) x hx

theorem cbcEncryptAux_spec (E : List Nat → List Nat)
    (hE : ∀ b, b.length = 16 → (∀ x ∈ b, x < 256) →
      (E b).length = 16 ∧ ∀ x ∈ E b, x < 256) :
    ∀ (fuel : Nat) (prev data : List Nat), data.length ≤ fuel →
      16 ∣ data.length → prev.length = 16 → (∀ x ∈ prev, x < 256) →
      (∀ x ∈ data, x < 256) →
      (cbcEncryptAux E fuel prev data).length = data.length
      ∧ ∀ x ∈ cbcEncryptAux E fuel prev data, x < 256 := by
  intro fuel
  induction fuel with
  | zero =>
      intro prev data hlen _ _ _ _
      have hnil : data = [] := List.eq_nil_of_length_eq_zero (Nat.le_zero.mp hlen)
      subst hnil
      exact ⟨rfl, by intro x hx; simp [cbcEncryptAux] at hx⟩
  | succ m ih =>
      intro prev data hlen hdvd hprev hprevB hdataB
      cases data with
      | nil => exact ⟨rfl, by intro x hx; simp [cbcEncryptAux] at hx⟩
      | cons d ds =>
          have hL : 16 ≤ (d :: ds).length := by
            rcases hdvd with ⟨q, hq⟩
            simp only [List.length_cons] at hq ⊢
            omega
          have htake_len : ((d :: ds).take 16).length = 16 := by
            rw [List.length_take]
            omega
          have htake_mem : ∀ x ∈ (d :: ds).take 16, x < 256 :=
            fun x hx => hdataB x (List.mem_of_mem_take hx)
          have hxlen : (xorBytes ((d :: ds).take 16) prev).length = 16 := by
            rw [xorBytes_length, htake_len, hprev]
            simp
          have hxmem := xorBytes_mem_lt _ prev htake_mem hprevB
          obtain ⟨hclen, hcmem⟩ := hE _ hxlen hxmem
          have hdrop_len : ((d :: ds).drop 16).length = (d :: ds).length - 16 :=
            List.length_drop 16 (d :: ds)
          have hdrop_mem : ∀ x ∈ (d :: ds).drop 16, x < 256 :=
            fun x hx => hdataB x (List.mem_of_mem_drop hx)
          have hrec := ih (E (xorBytes ((d :: ds).take 16) prev)) ((d :: ds).drop 16)
            (by rw [hdrop_len]; simp only [List.length_cons] at hlen ⊢; omega)
            (by rw [hdrop_len]; rcases hdvd with ⟨q, hq⟩; omega)
            hclen hcmem hdrop_mem
          have hshow : cbcEncryptAux E (m + 1) prev (d :: ds)
              = E (xorBytes ((d :: ds).take 16) prev)
                ++ cbcEncryptAux E m (E (xorBytes ((d :: ds).take 16) prev))
                  ((d :: ds).drop 16) := rfl
          constructor
          · rw [hshow, List.length_append, hclen, hrec.1, hdrop_len]
            simp only [List.length_cons] at hL ⊢
            omega
          · intro x hx
            rw [hshow] at hx
            rcases List.mem_append.mp hx with hx | hx
            · exact hcmem x hx
            · exact hrec.2 x hx

theorem cbcDecryptAux_peel (D : List Nat → List Nat) (f : Nat)
    (prev c rest : List Nat) (hc : c.length = 16) :
    cbcDecryptAux D (f + 1) prev (c ++ rest)
      = xorBytes (D c) prev ++ cbcDecryptAux D f c rest := by
  obtain ⟨e, es, rfl⟩ : ∃ e es, c = e :: es := by
    cases c with
    | nil => simp at hc
    | cons e es => exact ⟨e, es, rfl⟩
  have h1 : (e :: (es ++ rest)).take 16 = e :: es := by
    rw [← List.cons_append, ← hc, List.take_left]
  have h2 : (e :: (es ++ rest)).drop 16 = rest := by
    rw [← List.cons_append, ← hc, List.drop_left]
  rw [List.cons_append]
  show xorBytes (D ((e :: (es ++ rest)).take 16)) prev
      ++ cbcDecryptAux D f ((e :: (es ++ rest)).take 16) ((e :: (es ++ rest)).drop 16)
    = xorBytes (D (e :: es)) prev ++ cbcDecryptAux D f (e :: es) rest
  rw [h1, h2]

theorem cbc_roundtrip_aux (E D : List Nat → List Nat)
    (hED : ∀ b, b.length = 16 → (∀ x ∈ b, x < 256) → D (E b) = b)
    (hE : ∀ b, b.length = 16 → (∀ x ∈ b, x < 256) →
      (E b).length = 16 ∧ ∀ x ∈ E b, x < 256) :
    ∀ (f1 : Nat), ∀ (f2 : Nat) (prev data : List Nat), data.length ≤ f1 →
      data.length ≤ f2 → 16 ∣ data.length → prev.length = 16 →
      (∀ x ∈ prev, x < 256) → (∀ x ∈ data, x < 256) →
      cbcDecryptAux D f2 prev (cbcEncryptAux E f1 prev data) = data := by
  intro f1
  induction f1 with
  | zero =>
      intro f2 prev data hlen _ _ _ _ _
      have hnil : data = [] := List.eq_nil_of_length_eq_zero (Nat.le_zero.mp hlen)
      subst hnil
      cases f2 <;> rfl
  | succ m ih =>
      intro f2 prev data hlen hlen2 hdvd hprev hprevB hdataB
      cases data with
      | nil => cases f2 <;> rfl
      | cons d ds =>
          have hL : 16 ≤ (d :: ds).length := by
            rcases hdvd with ⟨q, hq⟩
            simp only [List.length_cons] at hq ⊢
            omega
          have htake_len : ((d :: ds).take 16).length = 16 := by
            rw [List.length_take]
            omega
          have htake_mem : ∀ x ∈ (d :: ds).take 16, x < 256 :=
            fun x hx => hdataB x (List.mem_of_mem_take hx)
          have hxlen : (xorBytes ((d :: ds).take 16) prev).length = 16 := by
            rw [xorBytes_length, htake_len, hprev]
            simp
          have hxmem := xorBytes_mem_lt _ prev htake_mem hprevB
          obtain ⟨hclen, hcmem⟩ := hE _ hxlen hxmem
          have hshow : cbcEncryptAux E (m + 1) prev (d :: ds)
              = E (xorBytes ((d :: ds).take 16) prev)
                ++ cbcEncryptAux E m (E (xorBytes ((d :: ds).take 16) prev))
                  ((d :: ds).drop 16) := rfl
          rw [hshow]
          obtain ⟨f2', rfl⟩ : ∃ f2', f2 = f2' + 1 := by
            cases f2 with
            | zero => simp only [List.length_cons] at hlen2; omega
            | succ k => exact ⟨k, rfl⟩
          rw [cbcDecryptAux_peel D f2' prev _ _ hclen]
          rw [hED _ hxlen hxmem,
            xorBytes_cancel _ _ (by rw [htake_len, hprev])]
          have hdrop_len : ((d :: ds).drop 16).length = (d :: ds).length - 16 :=
            List.length_drop 16 (d :: ds)
          rw [ih f2' (E (xorBytes ((d :: ds).take 16) prev)) ((d :: ds).drop 16)
            (by rw [hdrop_len]; simp only [List.length_cons] at hlen ⊢; omega)
            (by rw [hdrop_len]; simp only [List.length_cons] at hlen2 ⊢; omega)
            (by rw [hdrop_len]; rcases hdvd with ⟨q, hq⟩; omega)
            hclen hcmem
            (fun x hx => hdataB x (List.mem_of_mem_drop hx))]
          exact List.take_append_drop 16 (d :: ds)

/-- C1: for every byte string, every value of the random 16-byte IV, and
every block permutation E with inverse D (standing in for keyed AES-256,
whose key is fixed by the startup PBKDF2 derivation), decrypting an
encryption returns exactly the original bytes -- including the empty string
and non-block-aligned lengths, since PKCS7 padding always appends between 1
and 16 bytes. -/
theorem c1_encrypt_decrypt_roundtrip (E D : List Nat → List Nat)
    (hED : ∀ b, b.length = 16 → (∀ x ∈ b, x < 256) → D (E b) = b)
    (hElen : ∀ b, b.length = 16 → (∀ x ∈ b, x < 256) → (E b).length = 16)
    (hEmem : ∀ b, b.length = 16 → (∀ x ∈ b, x < 256) → ∀ x ∈ E b, x < 256)
    (iv : List Nat) (hiv : iv.length = 16) (hivB : ∀ x ∈ iv, x < 256)
    (data : List Nat) (hdB : ∀ x ∈ data, x < 256) :
    decrypt_data D (encrypt_data E iv data) = some data := by
  have hE : ∀ b, b.length = 16 → (∀ x ∈ b, x < 256) →
      (E b).length = 16 ∧ ∀ x ∈ E b, x < 256 :=
    fun b h1 h2 => ⟨hElen b h1 h2, hEmem b h1 h2⟩
  have hpadB := pad_mem_lt data hdB
  have hpdvd := pad_length_dvd data
  obtain ⟨hctlen, hctmem⟩ := cbcEncryptAux_spec E hE (pad data).length iv (pad data)
    le_rfl hpdvd hiv hivB hpadB
  have hallB : ∀ x ∈ iv ++ cbcEncrypt E iv (pad data), x < 256 := by
    intro x hx
    rcases List.mem_append.mp hx with hx | hx
    · exact hivB x hx
    · exact hctmem x hx
  unfold encrypt_data decrypt_data
  rw [b64decode_encode _ hallB]
  dsimp only
  have htake : (iv ++ cbcEncrypt E iv (pad data)).take 16 = iv := by
    rw [← hiv, List.take_left]
  have hdrop : (iv ++ cbcEncrypt E iv (pad data)).drop 16
      = cbcEncrypt E iv (pad data) := by
    rw [← hiv, List.drop_left]
  rw [htake, hdrop, if_pos hiv]
  have hmod : (cbcEncrypt E iv (pad data)).length % 16 = 0 := by
    show (cbcEncryptAux E (pad data).length iv (pad data)).length % 16 = 0
    rw [hctlen]
    omega
  rw [if_pos hmod]
  have hdec : cbcDecrypt D iv (cbcEncrypt E iv (pad data)) = pad data := by
    show cbcDecryptAux D (cbcEncryptAux E (pad data).length iv (pad data)).length iv
      (cbcEncryptAux E (pad data).length iv (pad data)) = pad data
    rw [hctlen]
    exact cbc_roundtrip_aux E D hED hE (pad data).length (pad data).length iv
      (pad data) le_rfl le_rfl hpdvd hiv hivB hpadB
  rw [hdec]
  exact unpad_pad data

/-- Witness for C1: identity block permutation, all-zero IV, a two-byte
(non-block-aligned) payload. -/
theorem c1_encrypt_decrypt_roundtrip_witness :
    decrypt_data id (encrypt_data id (List.replicate 16 0) [72, 105])
      = some [72, 105] :=
  c1_encrypt_decrypt_roundtrip id id (fun _ _ _ => rfl) (fun _ h _ => h)
    (fun _ _ h => h) (List.replicate 16 0) (by decide) (by decide)
    [72, 105] (by decide)

/-- C8 (counterexample): decrypt_data performs no padding validation.  With
the identity block permutation and the all-zero IV, the genuine blob for
the one-byte plaintext decrypts correctly, but the blob whose ciphertext
differs in exactly its last byte (same length, same prefix) decrypts
WITHOUT error to bytes different from the original plaintext, instead of
failing with a decryption error. -/
theorem c8_counterexample :
    decrypt_data id cexGenuine = some cexPlain
    ∧ decrypt_data id cexCorrupt = some (65 :: List.replicate 12 15)
    ∧ (65 :: List.replicate 12 15 : List Nat) ≠ cexPlain
    ∧ cexCorruptCt.length = (cbcEncrypt id cexIV (pad cexPlain)).length
    ∧ cexCorruptCt.dropLast = (cbcEncrypt id cexIV (pad cexPlain)).dropLast
    ∧ cexCorruptCt ≠ cbcEncrypt id cexIV (pad cexPlain) := by
  refine ⟨by decide, by decide, by decide, by decide, by decide, by decide⟩

/-- C8 (amended): the half of the claim that the code does implement: a
blob whose ciphertext portion is not a multiple of the 16-byte block size
makes decrypt_data fail (the AES finalizer raises), for every block
permutation; single-byte corruptions that preserve block alignment are not
detected, per the counterexample. -/
theorem c8_misaligned_ciphertext_fails (D : List Nat → List Nat)
    (eb : List Nat) (hm : ∀ x ∈ eb, x < 256)
    (hlen : (eb.drop 16).length % 16 ≠ 0) :
    decrypt_data D (b64encode eb) = none := by
  unfold decrypt_data
  rw [b64decode_encode eb hm]
  dsimp only
  have h16 : (eb.take 16).length = 16 := by
    rw [List.length_take]
    rw [List.length_drop] at hlen
    omega
  rw [if_pos h16, if_neg hlen]

/-- Witness for the amended C8 at a concrete 17-byte blob (1-byte
ciphertext). -/
theorem c8_misaligned_ciphertext_fails_witness :
    ((∀ x ∈ List.replicate 17 0, x < 256)
      ∧ ((List.replicate 17 0 : List Nat).drop 16).length % 16 ≠ 0)
    ∧ decrypt_data id (b64encode (List.replicate 17 0)) = none :=
  ⟨⟨by decide, by decide⟩,
   c8_misaligned_ciphertext_fails id (List.replicate 17 0) (by decide) (by decide)⟩
